import Mathlib

/-!
Verification of the bucket-collision evaluator notebook
(`src/notebooks/experiments.py`).

The notebook defines five candidate hash functions on the 8-bit domain
[0, 256) and an evaluator `_evaluate_hash_functions` that tallies, for
each input value `x` in [0, 256), the pair of bucket indices
`(hash1 x &&& (B-1), hash2 x &&& (B-1))` into a `B × B` table.

We embed the Python functions as Lean functions on `Nat` (Python
integers on this code path are non-negative and unbounded, so `Nat`
is the faithful carrier; the bucket count is carried as `Int` because
the Python code accepts negative arguments and fails on them).
The mutable numpy array is embedded as a `List (List Nat)` threaded
through the loop; indexing is checked, and an out-of-bounds access —
which in Python raises an exception, aborting the evaluation with no
table produced — is embedded as `Option.none`, matching the spec's
single `InvalidArgument` failure.
-/

set_option maxRecDepth 100000

namespace Experiments

/-- `h1`: the identity hash (`def h1(x): return x`). -/
def h1 (x : Nat) : Nat := x

/-- The loop body of `h2_reverse`:
```
while position > 0:
  y += ((x & 1) << position)
  x >>= 1
  position -= 1
```
The third argument is `position`; the loop runs while `position > 0`,
so a call with `position = 0` returns `y` unchanged. -/
def h2_reverse_loop : Nat → Nat → Nat → Nat
  | _, y, 0 => y
  | x, y, position + 1 =>
      h2_reverse_loop (x >>> 1) (y + ((x &&& 1) <<< (position + 1))) position

/-- `h2_reverse`: as in the source, `size = 8`, `y = 0`,
`position = size - 1 = 7`, then the while loop above. -/
def h2_reverse (x : Nat) : Nat :=
  h2_reverse_loop x 0 (8 - 1)

/-- `h2_xor`: `x ^ 0x2A`. -/
def h2_xor (x : Nat) : Nat := x ^^^ 0x2A

/-- `h2_multiplicative`: `(x * 0x9E) & 0xFF`. -/
def h2_multiplicative (x : Nat) : Nat := (x * 0x9E) &&& 0xFF

/-- `np.zeros((n, n))`: an `n × n` grid of zero counts. -/
def np_zeros (n : Nat) : List (List Nat) :=
  List.replicate n (List.replicate n 0)

/-- `buckets[bucket1][bucket2] += 1` with numpy's bounds check: if either
index is out of range the Python code raises `IndexError` (embedded as
`none`); otherwise the cell is incremented. -/
def bucketIncr (t : List (List Nat)) (i j : Nat) : Option (List (List Nat)) :=
  match t[i]? with
  | none => none
  | some row =>
    match row[j]? with
    | none => none
    | some v => some (t.set i (row.set j (v + 1)))

/-- The evaluator's `for x in range(256)` loop, threading the table:
`bucket1 = hash_func1(x) & mask`, `bucket2 = hash_func2(x) & mask`,
`buckets[bucket1][bucket2] += 1`. A failed increment aborts the whole
evaluation (the Python exception propagates out of the function). -/
def evalLoop (hash_func1 hash_func2 : Nat → Nat) (mask : Nat) :
    List Nat → List (List Nat) → Option (List (List Nat))
  | [], t => some t
  | x :: xs, t =>
    match bucketIncr t (hash_func1 x &&& mask) (hash_func2 x &&& mask) with
    | none => none
    | some t2 => evalLoop hash_func1 hash_func2 mask xs t2

/-- `_evaluate_hash_functions(hash_func1, hash_func2, num_buckets)`.
`num_buckets` is `Int` because the Python function accepts any integer:
for a negative count `np.zeros` raises `ValueError` (embedded as `none`);
for `num_buckets = 0` the table is empty and the first indexing raises
`IndexError` (the loop yields `none`); otherwise the masked indices are
in range and the populated table is returned. Python's `& (num_buckets-1)`
on non-negative hash values with `num_buckets ≥ 1` is `&&& (toNat-1)`. -/
def _evaluate_hash_functions (hash_func1 hash_func2 : Nat → Nat)
    (num_buckets : Int) : Option (List (List Nat)) :=
  if num_buckets < 0 then none
  else
    evalLoop hash_func1 hash_func2 (num_buckets.toNat - 1)
      (List.range 256) (np_zeros num_buckets.toNat)

/-- Reading cell `(i, j)` of a table; out-of-range reads default to 0
(used only for stating properties, never by the embedded code). -/
def cell (t : List (List Nat)) (i j : Nat) : Nat :=
  (t.getD i []).getD j 0

/-- Total of all cells of a table. -/
def tableSum (t : List (List Nat)) : Nat :=
  (t.map List.sum).sum

/-- Shape invariant: a `B × B` grid. -/
def isTable (B : Nat) (t : List (List Nat)) : Prop :=
  t.length = B ∧ ∀ row ∈ t, row.length = B

/-- Reference definition of the collision table, taken from the spec's
words: cell `(i, j)` counts the input values `x` in [0, 256) such that
`hash1(x) mod B == i` and `hash2(x) mod B == j`. -/
def refCell (hash1 hash2 : Nat → Nat) (B : Nat) (i j : Nat) : Nat :=
  (List.range 256).countP (fun x => hash1 x % B == i && hash2 x % B == j)

/-! ### Helper lemmas about grids -/

lemma getD_set_self {α} (l : List α) (i : Nat) (a : α) (d : α)
    (h : i < l.length) : (l.set i a).getD i d = a := by
  rw [List.getD_eq_getElem?_getD, List.getElem?_set_eq_of_lt a h]
  rfl

lemma getD_set_of_ne {α} (l : List α) {i i' : Nat} (a : α) (d : α)
    (h : i' ≠ i) : (l.set i a).getD i' d = l.getD i' d := by
  rw [List.getD_eq_getElem?_getD, List.getElem?_set_ne (Ne.symm h),
    List.getD_eq_getElem?_getD]

/-- Reading a cell through optional indexing. -/
lemma cell_eq_getElem? (t : List (List Nat)) (i j : Nat) :
    cell t i j = ((t[i]?.getD [])[j]?).getD 0 := by
  simp [cell, List.getD_eq_getElem?_getD]

lemma sum_set_add (l : List Nat) :
    ∀ (i : Nat) (v a : Nat), l[i]? = some v → (l.set i a).sum + v = l.sum + a := by
  induction l with
  | nil => intro i v a h; simp at h
  | cons b l ih =>
    intro i v a h
    cases i with
    | zero =>
      simp at h
      subst h
      simp [List.set]
      omega
    | succ i =>
      simp at h
      have := ih i v a h
      simp [List.set]
      omega

lemma np_zeros_isTable (B : Nat) : isTable B (np_zeros B) := by
  constructor
  · simp [np_zeros]
  · intro row hrow
    have := List.eq_of_mem_replicate hrow
    simp [this]

lemma cell_np_zeros (B i j : Nat) : cell (np_zeros B) i j = 0 := by
  rw [cell_eq_getElem?]
  unfold np_zeros
  simp only [List.getElem?_replicate]
  by_cases hi : i < B
  · rw [if_pos hi]
    simp only [Option.getD_some, List.getElem?_replicate]
    by_cases hj : j < B
    · simp [hj]
    · simp [hj]
  · simp [hi]

lemma tableSum_np_zeros (B : Nat) : tableSum (np_zeros B) = 0 := by
  simp [tableSum, np_zeros, List.map_replicate, List.sum_replicate]

/-- Out-of-range cells of a well-formed table read as 0. -/
lemma cell_eq_zero_of_oob {B : Nat} {t : List (List Nat)} (hT : isTable B t)
    {i j : Nat} (h : B ≤ i ∨ B ≤ j) : cell t i j = 0 := by
  obtain ⟨hlen, hrows⟩ := hT
  rw [cell_eq_getElem?]
  rcases h with hi | hj
  · rw [show t[i]? = none from List.getElem?_eq_none (by omega)]
    simp
  · cases hrow : t[i]? with
    | none => simp
    | some row =>
      have hmem : row ∈ t := List.getElem?_mem hrow
      have hrl : row.length = B := hrows _ hmem
      rw [Option.getD_some, show row[j]? = none from
        List.getElem?_eq_none (by omega)]
      simp

/-- A successful increment: on a `B × B` table with in-range indices,
`bucketIncr` succeeds, preserves the shape, bumps exactly the target
cell, and adds 1 to the total. -/
lemma bucketIncr_spec {B : Nat} {t : List (List Nat)} (hT : isTable B t)
    {i j : Nat} (hi : i < B) (hj : j < B) :
    ∃ t', bucketIncr t i j = some t' ∧ isTable B t' ∧
      (∀ i' j', cell t' i' j' =
        cell t i' j' + if i' = i ∧ j' = j then 1 else 0) ∧
      tableSum t' = tableSum t + 1 := by
  obtain ⟨hlen, hrows⟩ := hT
  have hit : i < t.length := by omega
  have hrow : t[i]? = some t[i] := List.getElem?_eq_getElem hit
  have hmem : t[i] ∈ t := List.getElem_mem hit
  have hrl : (t[i]).length = B := hrows _ hmem
  have hjt : j < (t[i]).length := by omega
  have hv : (t[i])[j]? = some (t[i])[j] := List.getElem?_eq_getElem hjt
  refine ⟨t.set i ((t[i]).set j ((t[i])[j] + 1)), ?_, ?_, ?_, ?_⟩
  · simp only [bucketIncr, hrow, hv]
  · constructor
    · simp [hlen]
    · intro row hrowmem
      rcases List.mem_or_eq_of_mem_set hrowmem with hmem' | heq
      · exact hrows _ hmem'
      · simp [heq, hrl]
  · intro i' j'
    by_cases hii : i' = i
    · subst hii
      have hstep : cell (t.set i' ((t[i']).set j ((t[i'])[j] + 1))) i' j' =
          ((t[i']).set j ((t[i'])[j] + 1)).getD j' 0 := by
        unfold cell
        rw [getD_set_self _ _ _ _ hit]
      rw [hstep]
      by_cases hjj : j' = j
      · subst hjj
        rw [getD_set_self _ _ _ _ hjt, cell_eq_getElem?, hrow,
          Option.getD_some, hv, Option.getD_some]
        simp
      · rw [getD_set_of_ne _ _ _ hjj, cell_eq_getElem?, hrow,
          Option.getD_some, List.getD_eq_getElem?_getD]
        simp [hjj]
    · unfold cell
      rw [getD_set_of_ne _ _ _ hii]
      simp [hii]
  · unfold tableSum
    rw [List.map_set]
    have h1 : (t.map List.sum)[i]? = some ((t[i]).sum) := by
      rw [List.getElem?_map, hrow]
      simp
    have h2 : ((t[i]).set j ((t[i])[j] + 1)).sum + (t[i])[j] =
        (t[i]).sum + ((t[i])[j] + 1) := sum_set_add _ j _ _ hv
    have h3 := sum_set_add (t.map List.sum) i ((t[i]).sum)
      (((t[i]).set j ((t[i])[j] + 1)).sum) h1
    omega

/-- Loop invariant: running the evaluation loop over `xs` from a
well-formed table succeeds when every computed index is in range,
preserves the shape, adds to each cell the number of inputs hashing to
it, and adds `xs.length` to the total. -/
lemma evalLoop_spec (hash_func1 hash_func2 : Nat → Nat) (mask B : Nat) :
    ∀ (xs : List Nat) (t : List (List Nat)), isTable B t →
    (∀ x ∈ xs, hash_func1 x &&& mask < B) →
    (∀ x ∈ xs, hash_func2 x &&& mask < B) →
    ∃ t', evalLoop hash_func1 hash_func2 mask xs t = some t' ∧
      isTable B t' ∧
      (∀ i j, cell t' i j = cell t i j +
        xs.countP (fun x =>
          hash_func1 x &&& mask == i && (hash_func2 x &&& mask == j))) ∧
      tableSum t' = tableSum t + xs.length := by
  intro xs
  induction xs with
  | nil =>
    intro t hT _ _
    exact ⟨t, rfl, hT, by simp, by simp⟩
  | cons x xs ih =>
    intro t hT hb1 hb2
    have hx1 : hash_func1 x &&& mask < B := hb1 x (by simp)
    have hx2 : hash_func2 x &&& mask < B := hb2 x (by simp)
    obtain ⟨t2, ht2, hT2, hcell2, hsum2⟩ := bucketIncr_spec hT hx1 hx2
    obtain ⟨t', ht', hT', hcell', hsum'⟩ := ih t2 hT2
      (fun y hy => hb1 y (by simp [hy]))
      (fun y hy => hb2 y (by simp [hy]))
    refine ⟨t', ?_, hT', ?_, ?_⟩
    · unfold evalLoop
      rw [ht2]
      exact ht'
    · intro i j
      rw [hcell' i j, hcell2 i j, List.countP_cons]
      cases hcond : (hash_func1 x &&& mask == i && (hash_func2 x &&& mask == j)) with
      | true =>
        simp only [Bool.and_eq_true, beq_iff_eq] at hcond
        rw [if_pos ⟨hcond.1.symm, hcond.2.symm⟩]
        simp [hcond.1, hcond.2]
        omega
      | false =>
        have hne : ¬(i = hash_func1 x &&& mask ∧ j = hash_func2 x &&& mask) := by
          rintro ⟨rfl, rfl⟩
          simp at hcond
        rw [if_neg hne]
        simp
    · rw [hsum', hsum2]
      simp
      omega

/-- A masked value stays below the bucket count when it is positive:
`v &&& (B - 1) ≤ B - 1 < B`. -/
lemma mask_lt {B : Nat} (hB : 1 ≤ B) (v : Nat) : v &&& (B - 1) < B :=
  Nat.lt_of_le_of_lt Nat.and_le_right (by omega)

/-- Full specification of `_evaluate_hash_functions` at any positive
bucket count `B`: the call succeeds, the result is a `B × B` grid, each
cell counts the inputs hashing to its index pair under the bitmask
reduction, and the grand total is 256. -/
lemma eval_spec (hash_func1 hash_func2 : Nat → Nat) (B : Nat) (hB : 1 ≤ B) :
    ∃ t, _evaluate_hash_functions hash_func1 hash_func2 (B : Int) = some t ∧
      isTable B t ∧
      (∀ i j, cell t i j = (List.range 256).countP
        (fun x => hash_func1 x &&& (B - 1) == i &&
          (hash_func2 x &&& (B - 1) == j))) ∧
      tableSum t = 256 := by
  obtain ⟨t, ht, hT, hcell, hsum⟩ := evalLoop_spec hash_func1 hash_func2
    (B - 1) B (List.range 256) (np_zeros B) (np_zeros_isTable B)
    (fun x _ => mask_lt hB _) (fun x _ => mask_lt hB _)
  refine ⟨t, ?_, hT, ?_, ?_⟩
  · unfold _evaluate_hash_functions
    rw [if_neg (by omega), Int.toNat_natCast]
    exact ht
  · intro i j
    rw [hcell i j, cell_np_zeros]
    simp
  · rw [hsum, tableSum_np_zeros]
    simp

/-! ### The bit-reverse function -/

/-- The `h2_reverse` loop only looks at the low `position` bits of `x`:
each pass consumes one low bit and shifts the rest down. -/
lemma h2_reverse_loop_congr :
    ∀ (p x x' y : Nat), x % 2 ^ p = x' % 2 ^ p →
      h2_reverse_loop x y p = h2_reverse_loop x' y p := by
  intro p
  induction p with
  | zero => intro x x' y _; rfl
  | succ p ih =>
    intro x x' y h
    have hdvd : (2 : Nat) ∣ 2 ^ (p + 1) := dvd_pow_self 2 (Nat.succ_ne_zero p)
    have hlow : x % 2 = x' % 2 := by
      rw [← Nat.mod_mod_of_dvd x hdvd, ← Nat.mod_mod_of_dvd x' hdvd, h]
    have hhigh : x / 2 % 2 ^ p = x' / 2 % 2 ^ p := by
      rw [← Nat.mod_mul_right_div_self x 2 (2 ^ p),
        ← Nat.mod_mul_right_div_self x' 2 (2 ^ p), ← pow_succ' 2 p, h]
    show h2_reverse_loop (x >>> 1) (y + ((x &&& 1) <<< (p + 1))) p =
      h2_reverse_loop (x' >>> 1) (y + ((x' &&& 1) <<< (p + 1))) p
    rw [Nat.and_one_is_mod, Nat.and_one_is_mod, hlow,
      Nat.shiftRight_eq_div_pow x 1, Nat.shiftRight_eq_div_pow x' 1,
      pow_one]
    exact ih (x / 2) (x' / 2) _ hhigh

/-- `h2_reverse` depends only on the low 7 bits of its argument: the
accumulation loop runs for positions 7 down to 1, consuming bits 0–6 of
`x` and never reading bit 7 or above. -/
lemma h2_reverse_mod128 (x : Nat) : h2_reverse x = h2_reverse (x % 128) := by
  unfold h2_reverse
  exact h2_reverse_loop_congr 7 x (x % 128) 0 (by omega)

/-! ### Counting helpers -/

/-- A `countP` over `range n` whose predicate pins the element to `i`
counts at most the single hit at `i`. -/
lemma countP_range_single (i : Nat) (q : Nat → Bool) :
    ∀ n, (List.range n).countP (fun x => (x == i) && q x) =
      if i < n ∧ q i = true then 1 else 0 := by
  intro n
  induction n with
  | zero => simp
  | succ n ih =>
    rw [List.range_succ, List.countP_append, ih, List.countP_cons,
      List.countP_nil]
    by_cases h1 : n = i
    · subst h1
      by_cases h2 : q n = true
      · simp [h2]
      · simp [h2]
    · have hb : ((n == i) && q n) = false := by simp [h1]
      rw [hb]
      by_cases h2 : i < n
      · have h3 : i < n + 1 := by omega
        simp [h2, h3]
      · have h3 : ¬ i < n + 1 := by omega
        simp [h2, h3]

/-- The evaluation loop only looks at the hash functions' values on the
inputs it scans. -/
lemma evalLoop_congr (f1 f1' f2 f2' : Nat → Nat) (mask : Nat) :
    ∀ (xs : List Nat) (t : List (List Nat)),
      (∀ x ∈ xs, f1 x = f1' x) → (∀ x ∈ xs, f2 x = f2' x) →
      evalLoop f1 f2 mask xs t = evalLoop f1' f2' mask xs t := by
  intro xs
  induction xs with
  | nil => intro t _ _; rfl
  | cons x xs ih =>
    intro t h1e h2e
    unfold evalLoop
    rw [h1e x (by simp), h2e x (by simp)]
    cases hb : bucketIncr t (f1' x &&& mask) (f2' x &&& mask) with
    | none => rfl
    | some t2 =>
      exact ih t2 (fun y hy => h1e y (by simp [hy]))
        (fun y hy => h2e y (by simp [hy]))

/-- With a zero bucket count the grid is empty and the very first
increment fails (in Python: `IndexError` on `buckets[bucket1]`). -/
lemma eval_zero (f g : Nat → Nat) :
    _evaluate_hash_functions f g 0 = none := by
  unfold _evaluate_hash_functions
  rw [if_neg (by omega)]
  have h0 : (0 : Int).toNat = 0 := rfl
  rw [h0]
  have hzeros : np_zeros 0 = [] := rfl
  rw [hzeros, show (256 : Nat) = 255 + 1 from rfl, List.range_succ_eq_map]
  unfold evalLoop
  simp [bucketIncr]

/-- Counting the diagonal: with `B = 16` and both hashes the identity,
the cell count at in-range `(i, j)` is 16 on the diagonal, 0 off it. -/
lemma countP_mod16_key : ∀ i, i < 16 → ∀ j, j < 16 →
    (List.range 256).countP
      (fun x => h1 x &&& (16 - 1) == i && (h1 x &&& (16 - 1) == j)) =
    (if i = j then 16 else 0) := by decide

/-- With `B = 256`, identity vs XOR-with-42: the cell count at `(i, j)`
is 1 exactly when `j = i ^^^ 42` (and `i` is in range), else 0. -/
lemma xor_cell_char (i j : Nat) :
    (List.range 256).countP
      (fun x => h1 x &&& (256 - 1) == i && (h2_xor x &&& (256 - 1) == j)) =
    if i < 256 ∧ j = i ^^^ 42 then 1 else 0 := by
  have h256 : (2 : Nat) ^ 8 = 256 := by norm_num
  have hcongr : (List.range 256).countP
      (fun x => h1 x &&& (256 - 1) == i && (h2_xor x &&& (256 - 1) == j)) =
      (List.range 256).countP (fun x => (x == i) && ((x ^^^ 42) == j)) := by
    apply List.countP_congr
    intro x hx
    have hx' : x < 256 := List.mem_range.mp hx
    have e1 : h1 x &&& (256 - 1) = x := by
      show x &&& (256 - 1) = x
      rw [show (256 : Nat) - 1 = 2 ^ 8 - 1 by norm_num,
        Nat.and_pow_two_sub_one_eq_mod, Nat.mod_eq_of_lt (by omega)]
    have e2 : h2_xor x &&& (256 - 1) = x ^^^ 42 := by
      show (x ^^^ 42) &&& (256 - 1) = x ^^^ 42
      have hlt : x ^^^ 42 < 2 ^ 8 :=
        Nat.xor_lt_two_pow (by omega) (by omega)
      rw [show (256 : Nat) - 1 = 2 ^ 8 - 1 by norm_num,
        Nat.and_pow_two_sub_one_eq_mod, Nat.mod_eq_of_lt hlt]
    rw [e1, e2]
  rw [hcongr, countP_range_single i (fun x => (x ^^^ 42) == j) 256]
  by_cases h : (i ^^^ 42) = j
  · subst h
    simp
  · have h' : ¬ (j = i ^^^ 42) := fun he => h he.symm
    simp [h, h']

/-- The single 1 of row `i` sits at column `i ^^^ 42`, and symmetrically
the single 1 of column `j` sits at row `j ^^^ 42` (XOR with a fixed mask
is an involution on 8-bit values). -/
lemma xor_cond_symm (i j : Nat) :
    (i < 256 ∧ j = i ^^^ 42) ↔ (j < 256 ∧ i = j ^^^ 42) := by
  have h256 : (2 : Nat) ^ 8 = 256 := by norm_num
  constructor
  · rintro ⟨hi, rfl⟩
    refine ⟨?_, (Nat.xor_cancel_right 42 i).symm⟩
    have := Nat.xor_lt_two_pow (show i < 2 ^ 8 by omega)
      (show (42 : Nat) < 2 ^ 8 by omega)
    omega
  · rintro ⟨hj, rfl⟩
    refine ⟨?_, (Nat.xor_cancel_right 42 j).symm⟩
    have := Nat.xor_lt_two_pow (show j < 2 ^ 8 by omega)
      (show (42 : Nat) < 2 ^ 8 by omega)
    omega

/-! ### Claim theorems -/

/-- C1: for every pair of hash functions on [0, 256) and every positive
power-of-two bucket count `B = 2 ^ k`, the evaluator returns a table
whose cell `(i, j)` equals the reference definition taken from the
spec's words: the number of inputs `x` in [0, 256) with
`hash1 x % B = i` and `hash2 x % B = j` (the bitmask reduction
`v &&& (B - 1)` coincides with `v % B` for a power of two). -/
theorem evaluator_matches_reference_table (hash1 hash2 : Nat → Nat) (k : Nat) :
    ∃ t, _evaluate_hash_functions hash1 hash2 ((2 ^ k : Nat) : Int) = some t ∧
      ∀ i j, cell t i j = refCell hash1 hash2 (2 ^ k) i j := by
  obtain ⟨t, ht, -, hcell, -⟩ :=
    eval_spec hash1 hash2 (2 ^ k) (Nat.two_pow_pos k)
  refine ⟨t, ht, fun i j => ?_⟩
  rw [hcell i j]
  unfold refCell
  simp only [Nat.and_pow_two_sub_one_eq_mod]

/-- C2: for every pair of hash functions and every positive power-of-two
bucket count, the cells of the returned table sum to 256 and every cell
value is at most 256 (non-negativity is inherent in the `Nat` counts). -/
theorem table_total_and_cell_bounds (hash1 hash2 : Nat → Nat) (k : Nat) :
    ∃ t, _evaluate_hash_functions hash1 hash2 ((2 ^ k : Nat) : Int) = some t ∧
      tableSum t = 256 ∧ ∀ i j, cell t i j ≤ 256 := by
  obtain ⟨t, ht, -, hcell, hsum⟩ :=
    eval_spec hash1 hash2 (2 ^ k) (Nat.two_pow_pos k)
  refine ⟨t, ht, hsum, fun i j => ?_⟩
  rw [hcell i j]
  calc (List.range 256).countP _ ≤ (List.range 256).length :=
        List.countP_le_length _
    _ = 256 := List.length_range 256

/-- C3: with both hash functions the identity and `bucket_count = 16`,
the table is diagonal: cell `(i, i)` is 16 for `i < 16` and every other
cell (off-diagonal or out of range) is 0. -/
theorem identity_identity_table_diagonal :
    ∃ t, _evaluate_hash_functions h1 h1 ((16 : Nat) : Int) = some t ∧
      ∀ i j, cell t i j = if i = j ∧ i < 16 then 16 else 0 := by
  obtain ⟨t, ht, hT, hcell, -⟩ := eval_spec h1 h1 16 (by omega)
  refine ⟨t, ht, fun i j => ?_⟩
  by_cases hi : i < 16
  · by_cases hj : j < 16
    · rw [hcell i j, countP_mod16_key i hi j hj]
      by_cases hij : i = j
      · simp [hij, hj]
      · simp [hij]
    · rw [cell_eq_zero_of_oob hT (Or.inr (by omega))]
      rw [if_neg (by omega)]
  · rw [cell_eq_zero_of_oob hT (Or.inl (by omega))]
    rw [if_neg (by omega)]

/-- C4: with `hash1` the identity, `hash2` XOR with `0x2A = 42`, and
`bucket_count = 256`, the table is a permutation matrix: the first
characterization says row `i` (for `i < 256`) holds a single 1, at
column `j = i ^^^ 42`, all other cells being 0; the second says column
`j` (for `j < 256`) holds a single 1, at row `i = j ^^^ 42`. -/
theorem xor_table_is_permutation_matrix :
    ∃ t, _evaluate_hash_functions h1 h2_xor ((256 : Nat) : Int) = some t ∧
      (∀ i j, cell t i j = if i < 256 ∧ j = i ^^^ 42 then 1 else 0) ∧
      (∀ i j, cell t i j = if j < 256 ∧ i = j ^^^ 42 then 1 else 0) := by
  obtain ⟨t, ht, -, hcell, -⟩ := eval_spec h1 h2_xor 256 (by omega)
  refine ⟨t, ht, fun i j => ?_, fun i j => ?_⟩
  · rw [hcell i j, xor_cell_char]
  · rw [hcell i j, xor_cell_char]
    by_cases h : i < 256 ∧ j = i ^^^ 42
    · rw [if_pos h, if_pos ((xor_cond_symm i j).mp h)]
    · rw [if_neg h, if_neg (fun h' => h ((xor_cond_symm i j).mpr h'))]

/-- C5 counterexample: the bit-reverse function is *not* an involution
on [0, 256): the loop `while position > 0` stops before position 0, so
bit 7 of the input is dropped and bit 0 of the output is always clear.
At `x = 1`: `h2_reverse 1 = 128` and `h2_reverse 128 = 0 ≠ 1`; at
`x = 128` the double application gives `0 ≠ 128`. -/
theorem bit_reverse_not_involution_at_one :
    h2_reverse (h2_reverse 1) ≠ 1 ∧ h2_reverse (h2_reverse 128) ≠ 128 := by
  decide

/-- C5 amended: for `x` in [0, 256), applying `h2_reverse` twice returns
`x` exactly when bits 0 and 7 of `x` are clear, i.e. `x` is even and
`x < 128`; the double application clears those two bits. -/
theorem bit_reverse_involution_iff_low_bits_clear :
    ∀ x, x < 256 → (h2_reverse (h2_reverse x) = x ↔ x % 2 = 0 ∧ x < 128) := by
  decide

/-- Witness for the amended C5 at the concrete input `x = 6`. -/
theorem bit_reverse_involution_witness :
    6 < 256 ∧ (h2_reverse (h2_reverse 6) = 6 ↔ 6 % 2 = 0 ∧ 6 < 128) :=
  ⟨by decide, bit_reverse_involution_iff_low_bits_clear 6 (by decide)⟩

/-- C6 counterexample: bit 0 of the result does *not* equal bit 7 of the
input: at `x = 128`, `h2_reverse 128 = 0`, whose bit 0 is `false`, while
bit 7 of 128 is `true` (the loop never writes to position 0). -/
theorem bit_reverse_bit0_counterexample :
    ¬ ((h2_reverse 128).testBit 0 = (128 : Nat).testBit 7) := by decide

/-- C6 amended: for every `x` in [0, 256), bit `k` of `h2_reverse x`
equals bit `7 - k` of `x` for each `k` in [1, 8); bit 0 of the result is
always clear; and the result depends only on `x % 128` (so bits of `x`
above bit 7 — indeed bit 7 itself — have no effect). -/
theorem bit_reverse_reverses_bits_one_to_seven :
    (∀ x, x < 256 → ∀ k, k < 8 → 1 ≤ k →
      (h2_reverse x).testBit k = x.testBit (7 - k)) ∧
    (∀ x : Nat, (h2_reverse x).testBit 0 = false) ∧
    (∀ x : Nat, h2_reverse x = h2_reverse (x % 128)) := by
  refine ⟨by decide, ?_, h2_reverse_mod128⟩
  intro x
  rw [h2_reverse_mod128]
  have key : ∀ y, y < 128 → (h2_reverse y).testBit 0 = false := by decide
  exact key _ (by omega)

/-- Witness for the amended C6 at `x = 1`, `k = 7`: bit 7 of
`h2_reverse 1 = 128` equals bit 0 of 1. -/
theorem bit_reverse_bits_witness :
    (h2_reverse 1).testBit 7 = Nat.testBit 1 (7 - 7) :=
  bit_reverse_reverses_bits_one_to_seven.1 1 (by decide) 7 (by decide)
    (by decide)

/-- C7: the evaluator fails — producing no table at all — exactly on
non-positive bucket counts (the spec's `InvalidArgument`; in the Python
source a negative count is rejected by `np.zeros` and a zero count makes
the first `buckets[bucket1]` access fail), and succeeds with a table for
every positive bucket count. -/
theorem evaluator_fails_iff_nonpositive_buckets (f g : Nat → Nat)
    (B : Int) :
    (B ≤ 0 → _evaluate_hash_functions f g B = none) ∧
    (0 < B → ∃ t, _evaluate_hash_functions f g B = some t) := by
  constructor
  · intro hB
    rcases lt_or_eq_of_le hB with hlt | heq
    · unfold _evaluate_hash_functions
      rw [if_pos hlt]
    · subst heq
      exact eval_zero f g
  · intro hB
    have h1' : 1 ≤ B.toNat := by omega
    obtain ⟨t, ht, -, -, -⟩ := eval_spec f g B.toNat h1'
    rw [Int.toNat_of_nonneg (by omega)] at ht
    exact ⟨t, ht⟩

/-- Witness for C7: failure at `bucket_count = 0`, success at 16. -/
theorem evaluator_fails_iff_witness :
    _evaluate_hash_functions h1 h2_xor 0 = none ∧
    ∃ t, _evaluate_hash_functions h1 h2_xor 16 = some t :=
  ⟨(evaluator_fails_iff_nonpositive_buckets h1 h2_xor 0).1 (by decide),
   (evaluator_fails_iff_nonpositive_buckets h1 h2_xor 16).2 (by decide)⟩

/-- C8: the evaluator is deterministic: its result is a function of the
hash functions' values on the scanned domain [0, 256) and the bucket
count alone — two calls whose hash functions agree on [0, 256) (in
particular two calls with the very same arguments) return identical
results, with no hidden mutable state. -/
theorem evaluator_deterministic (f1 f1' f2 f2' : Nat → Nat) (B : Int)
    (h1e : ∀ x, x < 256 → f1 x = f1' x)
    (h2e : ∀ x, x < 256 → f2 x = f2' x) :
    _evaluate_hash_functions f1 f2 B = _evaluate_hash_functions f1' f2' B := by
  unfold _evaluate_hash_functions
  by_cases hB : B < 0
  · rw [if_pos hB, if_pos hB]
  · rw [if_neg hB, if_neg hB]
    exact evalLoop_congr f1 f1' f2 f2' _ (List.range 256) _
      (fun x hx => h1e x (List.mem_range.mp hx))
      (fun x hx => h2e x (List.mem_range.mp hx))

/-- Witness for C8: the identity and a function agreeing with it on
[0, 256) (but not elsewhere) give identical tables at `B = 16`. -/
theorem evaluator_deterministic_witness :
    _evaluate_hash_functions h1 h2_xor 16 =
      _evaluate_hash_functions (fun x => if x < 256 then x else 0) h2_xor 16 :=
  evaluator_deterministic h1 (fun x => if x < 256 then x else 0)
    h2_xor h2_xor 16 (by decide) (fun x _ => rfl)

/-- C9: for every bucket count `B ≥ 1` — power of two or not — every
bucket index the evaluator computes satisfies `v &&& (B - 1) < B`, so
every increment lands inside the `B × B` grid, the evaluation never goes
out of bounds (it returns a table rather than failing), and the cells
still sum to 256. -/
theorem bucket_indices_in_range (f g : Nat → Nat) (B : Nat) (hB : 1 ≤ B) :
    (∀ x, f x &&& (B - 1) < B ∧ g x &&& (B - 1) < B) ∧
    ∃ t, _evaluate_hash_functions f g (B : Int) = some t ∧
      isTable B t ∧ tableSum t = 256 := by
  refine ⟨fun x => ⟨mask_lt hB _, mask_lt hB _⟩, ?_⟩
  obtain ⟨t, ht, hT, -, hsum⟩ := eval_spec f g B hB
  exact ⟨t, ht, hT, hsum⟩

/-- Witness for C9 at the non-power-of-two bucket count `B = 12`. -/
theorem bucket_indices_in_range_witness :
    1 ≤ 12 ∧
    ((∀ x, h1 x &&& (12 - 1) < 12 ∧ h2_multiplicative x &&& (12 - 1) < 12) ∧
    ∃ t, _evaluate_hash_functions h1 h2_multiplicative ((12 : Nat) : Int) =
        some t ∧ isTable 12 t ∧ tableSum t = 256) :=
  ⟨by decide, bucket_indices_in_range h1 h2_multiplicative 12 (by decide)⟩

/-- C10: for every non-negative integer `x`, the bit-reverse hash value
is even — the accumulation loop stops before position 0, so bit 0 is
never set — and lies in [0, 256). -/
theorem bit_reverse_even_and_bounded :
    ∀ x : Nat, h2_reverse x % 2 = 0 ∧ h2_reverse x < 256 := by
  intro x
  rw [h2_reverse_mod128]
  have key : ∀ y, y < 128 → h2_reverse y % 2 = 0 ∧ h2_reverse y < 256 := by
    decide
  exact key _ (by omega)

end Experiments
